import Mathlib

/-!
Shallow embedding of the credential vault in
`src/browser/features/password_manager.py` (class `PasswordManager`),
together with proofs settling the spec's claims about it.

External cryptographic primitives (the `cryptography` package's Fernet
cipher, `hashlib.sha256`, PBKDF2) are not part of this repository; they
are modelled at their documented interface: Fernet as an idealized
authenticated cipher whose tokens carry the key identity and an
integrity flag, SHA-256 and the KDF as function parameters (theorems
that need collision resistance take injectivity as a hypothesis).
Timestamp / usage-count metadata of entries (`created_at`, `last_used`,
`use_count`) is elided: it comes from an impure clock and no claim
mentions it.  URL-to-domain normalization (`extract_domain`, an external
helper per the spec's section 6) is a function parameter `ed`.
-/

/-- Value stored in an entry's password field.  In the Python source this
is always a string: either plaintext or a serialized Fernet token.  The
idealized model separates the two; `tok k p intact` is a Fernet token
produced under key `k` with payload `p`, whose HMAC is still valid iff
`intact` (tampering with any byte of a real token invalidates its HMAC). -/
inductive StoredValue where
  | plain (s : String)
  | tok (keyId : Nat) (payload : StoredValue) (intact : Bool)
deriving DecidableEq, Repr

/-- Idealized `Fernet(key).encrypt`: produces a fresh, intact token bound
to the key. -/
def fernetEncrypt (k : Nat) (p : StoredValue) : StoredValue :=
  StoredValue.tok k p true

/-- Idealized `Fernet(key).decrypt`: succeeds exactly on an intact token
produced under the same key; everything else raises `InvalidToken`
(modelled as `none`).  This is the documented fail-closed contract of the
external authenticated cipher. -/
def fernetDecrypt (k : Nat) (v : StoredValue) : Option StoredValue :=
  match v with
  | StoredValue.plain _ => none
  | StoredValue.tok k' p intact => if intact ∧ k' = k then some p else none

/-- Parameters the source passes to `PBKDF2HMAC` in
`PasswordManager._derive_key` (lines 99-104): SHA-256, 32-byte output,
100000 iterations. -/
structure KDFParams where
  algorithm : String
  length : Nat
  iterations : Nat
deriving DecidableEq, Repr

/-- The concrete parameter block of `PasswordManager._derive_key`. -/
def deriveKeyParams : KDFParams :=
  { algorithm := "SHA256", length := 32, iterations := 100000 }

namespace PasswordManager

/-- Embedding of `PasswordManager._encrypt` (lines 148-152): encrypt with
the held Fernet key if one is held, otherwise return the data unchanged. -/
def encrypt (fernet : Option Nat) (data : StoredValue) : StoredValue :=
  match fernet with
  | some k => fernetEncrypt k data
  | none => data

/-- Embedding of `PasswordManager._decrypt` (lines 154-161): if a Fernet
key is held, try to decrypt; on any decryption failure the bare
`except: return data` returns the input unchanged.  With no key held the
data is returned unchanged. -/
def decrypt (fernet : Option Nat) (data : StoredValue) : StoredValue :=
  match fernet with
  | some k =>
    match fernetDecrypt k data with
    | some p => p
    | none => data
  | none => data

end PasswordManager

/-- Embedding of class `PasswordEntry` (lines 18-52).  `password` holds
whatever value is in memory: plaintext normally, but the raw ciphertext
when `_load` ran without a usable key.  Clock-derived metadata is
elided. -/
structure PasswordEntry where
  domain : String
  username : String
  password : StoredValue
  url : Option String
deriving DecidableEq, Repr

/-- State of a `PasswordManager` instance together with the slice of
`QSettings` it persists to: `saltB64` is the persisted base64 salt
(decoded into `_salt` on startup), `masterHash` the persisted
`passwords/master_hash` (also held in `_master_password_hash`), `fernet`
the in-memory derived key (`None` when no key object is held), and
`passwords` the in-memory domain-to-entries dict, modelled as an
insertion-ordered association list like a Python dict.  `storedEntries`
is the persisted `passwords/entries` blob in its at-rest form. -/
structure Vault where
  saltB64 : String
  masterHash : Option String
  fernet : Option Nat
  passwords : List (String × List PasswordEntry)
  storedEntries : List (String × List PasswordEntry)
deriving DecidableEq, Repr

namespace PasswordManager

/-- Dictionary lookup `self.passwords[domain]` (with the `domain in
self.passwords` membership test returning `none`). -/
def lookupDomain (pw : List (String × List PasswordEntry)) (d : String) :
    Option (List PasswordEntry) :=
  (pw.find? (fun p => decide (p.1 = d))).map Prod.snd

/-- Dictionary assignment `self.passwords[domain] = es` for a key already
present: replaces the value, preserves insertion order. -/
def replaceDomain (pw : List (String × List PasswordEntry)) (d : String)
    (es : List PasswordEntry) : List (String × List PasswordEntry) :=
  pw.map (fun p => if p.1 = d then (d, es) else p)

/-- Per-entry action of `_save` (lines 179-190): each entry is written
out with its password run through `_encrypt`. -/
def encryptAll (fernet : Option Nat)
    (pw : List (String × List PasswordEntry)) :
    List (String × List PasswordEntry) :=
  pw.map (fun p => (p.1, p.2.map (fun e => { e with password := encrypt fernet e.password })))

/-- Per-entry action of `_load` (lines 163-177): each loaded entry's
password is run through `_decrypt`. -/
def decryptAll (fernet : Option Nat)
    (pw : List (String × List PasswordEntry)) :
    List (String × List PasswordEntry) :=
  pw.map (fun p => (p.1, p.2.map (fun e => { e with password := decrypt fernet e.password })))

/-- Embedding of `PasswordManager._save` (lines 179-190): serializes the
in-memory entries, passwords encrypted, into the settings blob. -/
def saveStore (v : Vault) : Vault :=
  { v with storedEntries := encryptAll v.fernet v.passwords }

/-- Embedding of `PasswordManager._hash_password` (lines 108-110):
SHA-256 of the password concatenated with the base64-encoded salt.  The
hash itself is the external `hashlib.sha256` hex digest, a parameter. -/
def hashPassword (sha256 : String → String) (saltB64 p : String) : String :=
  sha256 (p ++ saltB64)

/-- Embedding of `PasswordManager.set_master_password` (lines 112-121):
store the verification hash, derive and hold the Fernet key, re-save all
entries under it.  The salt is NOT regenerated.  The KDF (`_derive_key`,
lines 97-106) is the external PBKDF2, a parameter taking the password
and the salt. -/
def set_master_password (sha256 : String → String)
    (kdf : String → String → Nat) (v : Vault) (p : String) : Vault :=
  saveStore { v with
    masterHash := some (hashPassword sha256 v.saltB64 p),
    fernet := some (kdf p v.saltB64) }

/-- Embedding of `PasswordManager.verify_master_password` (lines
123-128): with no master hash stored, return `True` unconditionally;
otherwise compare the recomputed hash with the stored one. -/
def verify_master_password (sha256 : String → String) (v : Vault)
    (p : String) : Bool :=
  match v.masterHash with
  | none => true
  | some h => decide (hashPassword sha256 v.saltB64 p = h)

/-- Embedding of `PasswordManager.unlock` (lines 130-138): verify, then
derive and hold the key and re-run `_load`, which decrypts the persisted
entries with the new key. -/
def unlock (sha256 : String → String) (kdf : String → String → Nat)
    (v : Vault) (p : String) : Bool × Vault :=
  if verify_master_password sha256 v p then
    let k := kdf p v.saltB64
    (true, { v with fernet := some k,
                    passwords := decryptAll (some k) v.storedEntries })
  else
    (false, v)

/-- Embedding of `PasswordManager.is_locked` (lines 140-142). -/
def is_locked (v : Vault) : Bool :=
  v.masterHash.isSome && v.fernet.isNone

/-- Embedding of `PasswordManager.has_master_password` (lines 144-146). -/
def has_master_password (v : Vault) : Bool :=
  v.masterHash.isSome

/-- The in-place update loop of `save_password` (lines 198-206): the
first entry whose username matches gets the new password (kept as the
plaintext string in memory) and the new url. -/
def updateFirst (u p url : String) : List PasswordEntry → List PasswordEntry
  | [] => []
  | e :: es =>
    if e.username = u then
      { e with password := StoredValue.plain p, url := some url } :: es
    else
      e :: updateFirst u p url es

/-- Embedding of `PasswordManager.save_password` (lines 192-216): the
domain is extracted from the url by the external helper `ed`; an
existing `(domain, username)` entry is updated in place, otherwise a new
entry is appended; the store is persisted. -/
def save_password (ed : String → String) (v : Vault)
    (url username password : String) : Vault :=
  let domain := ed url
  let newEntry : PasswordEntry :=
    { domain := domain, username := username,
      password := StoredValue.plain password, url := some url }
  match lookupDomain v.passwords domain with
  | some es =>
    if (es.find? (fun e => decide (e.username = username))).isSome then
      saveStore { v with passwords := replaceDomain v.passwords domain (updateFirst username password url es) }
    else
      saveStore { v with passwords := replaceDomain v.passwords domain (es ++ [newEntry]) }
  | none =>
    saveStore { v with passwords := v.passwords ++ [(domain, [newEntry])] }

/-- Embedding of `PasswordManager.get_password` (lines 218-234): returns
the matching entry object, or the FIRST entry of the domain when the
username argument is absent or empty (Python's `if username:` treats the
empty string as absent), or `None`. -/
def get_password (ed : String → String) (v : Vault) (url : String)
    (username : Option String) : Option PasswordEntry :=
  let domain := ed url
  match lookupDomain v.passwords domain with
  | none => none
  | some es =>
    match username with
    | some u =>
      if u ≠ "" then es.find? (fun e => decide (e.username = u)) else es.head?
    | none => es.head?

/-- Embedding of `PasswordManager.remove_password` (lines 252-265):
drops every entry of the domain with that username, deletes the domain
key if its list became empty, persists; returns whether the domain key
existed at all. -/
def remove_password (v : Vault) (d u : String) : Bool × Vault :=
  match lookupDomain v.passwords d with
  | none => (false, v)
  | some es =>
    let es' := es.filter (fun e => decide (¬ e.username = u))
    let pw' :=
      if es'.isEmpty then
        v.passwords.filter (fun p => decide (¬ p.1 = d))
      else
        replaceDomain v.passwords d es'
    (true, saveStore { v with passwords := pw' })

/-- The in-place update loop of `update_password` (lines 269-275): the
first entry whose username matches gets the new password. -/
def updateFirstPw (u p : String) : List PasswordEntry → List PasswordEntry
  | [] => []
  | e :: es =>
    if e.username = u then
      { e with password := StoredValue.plain p } :: es
    else
      e :: updateFirstPw u p es

/-- Embedding of `PasswordManager.update_password` (lines 267-276):
updates the first `(domain, username)` match in place and persists,
returning `True`; returns `False` (no store change) when no entry
matches. -/
def update_password (v : Vault) (d u p : String) : Bool × Vault :=
  match lookupDomain v.passwords d with
  | none => (false, v)
  | some es =>
    if (es.find? (fun e => decide (e.username = u))).isSome then
      (true, saveStore { v with passwords := replaceDomain v.passwords d (updateFirstPw u p es) })
    else
      (false, v)

/-- Embedding of `PasswordManager.clear_all` (lines 299-303). -/
def clear_all (v : Vault) : Vault :=
  saveStore { v with passwords := [] }

/-- Character pool `string.ascii_letters` of the Python stdlib. -/
def asciiLetters : List Char :=
  "abcdefghijklmnopqrstuvwxyzABCDEFGHIJKLMNOPQRSTUVWXYZ".toList

/-- Character pool `string.digits` of the Python stdlib. -/
def asciiDigits : List Char := "0123456789".toList

/-- Character pool `string.punctuation` of the Python stdlib: the
non-alphanumeric printable ASCII characters, codes 33 to 126. -/
def asciiPunctuation : List Char :=
  ((List.range 127).drop 33).filterMap
    (fun n => let c := Char.ofNat n; if c.isAlphanum then none else some c)

/-- The `chars` pool built by `generate_password` (lines 345-347). -/
def generatorChars (include_special : Bool) : List Char :=
  asciiLetters ++ asciiDigits ++ (if include_special then asciiPunctuation else [])

/-- Embedding of `PasswordManager.generate_password` (lines 340-350): a
single pass of `length` draws of `secrets.choice(chars)`, with no retry
and no per-class check.  The CSPRNG is modelled by the draw stream
`pick`; draw `i` selects `chars[pick i % len(chars)]`. -/
def generate_password (pick : Nat → Nat) (length : Nat)
    (include_special : Bool) : String :=
  let chars := generatorChars include_special
  String.mk ((List.range length).map (fun i => chars.getD (pick i % chars.length) 'a'))

/-- Uniqueness invariant of the store from the spec's section 3: domain
keys are distinct (automatic for a Python dict) and within each domain's
list no two entries share a username, so no two entries share a
`(domain, username)` pair. -/
def uniqueStore (pw : List (String × List PasswordEntry)) : Prop :=
  (pw.map Prod.fst).Nodup ∧ ∀ p ∈ pw, (p.2.map PasswordEntry.username).Nodup

instance (pw : List (String × List PasswordEntry)) : Decidable (uniqueStore pw) :=
  inferInstanceAs (Decidable (And _ _))

/-- Per-list step of the `DecryptAll` phase of the spec's re-keying
protocol: decrypt every entry's stored secret, failing if any single one
fails. -/
def decryptEntriesE (k : Nat) : List PasswordEntry → Option (List PasswordEntry)
  | [] => some []
  | e :: es =>
    match fernetDecrypt k e.password, decryptEntriesE k es with
    | some s, some es' => some ({ e with password := s } :: es')
    | _, _ => none

/-- The `DecryptAll` phase of the spec's re-keying protocol over the
whole persisted blob. -/
def decryptStoreE (k : Nat) : List (String × List PasswordEntry) →
    Option (List (String × List PasswordEntry))
  | [] => some []
  | p :: ps =>
    match decryptEntriesE k p.2, decryptStoreE k ps with
    | some es, some ps' => some ((p.1, es) :: ps')
    | _, _ => none

/-- Modelled from the spec: `change_master_password` does not exist in
`password_manager.py`; this definition follows the spec's section 4.4.1
state machine `Verify → DecryptAll → ReEncryptAll → Commit` word for
word.  `Verify` runs `verify_master_password old`, aborting with no
mutation on failure; `DecryptAll` decrypts every persisted entry under
the key derived from `old`, aborting with no mutation if any entry fails;
`ReEncryptAll` takes a fresh salt (`freshSalt`, the random 16 bytes in
base64 form), derives the new key and verifier from `new_`, and encrypts
every decrypted secret under the new key; `Commit` replaces the persisted
salt, verifier, and ciphertexts in one write and holds the new key
(vault `Unlocked`). -/
def change_master_password (sha256 : String → String)
    (kdf : String → String → Nat) (freshSalt : String) (v : Vault)
    (old new_ : String) : Bool × Vault :=
  if verify_master_password sha256 v old then
    let k := kdf old v.saltB64
    match decryptStoreE k v.storedEntries with
    | none => (false, v)
    | some plains =>
      let k' := kdf new_ freshSalt
      (true, { saltB64 := freshSalt,
               masterHash := some (hashPassword sha256 freshSalt new_),
               fernet := some k',
               passwords := plains,
               storedEntries := encryptAll (some k') plains })
  else
    (false, v)

end PasswordManager

open PasswordManager

/-- Sample vault with no master password set, used to instantiate
universally quantified theorems. -/
def emptyVault : Vault :=
  { saltB64 := "s", masterHash := none, fernet := none,
    passwords := [], storedEntries := [] }

/-- Sample vault in the `Locked` state: a verifier is persisted (for
master password "A" under the identity hash model and salt "s"), no key
is held, and one stored entry's password is still ciphertext under key
7. -/
def lockedVault : Vault :=
  { saltB64 := "s", masterHash := some "As", fernet := none,
    passwords := [("x.com",
      [{ domain := "x.com", username := "u",
         password := StoredValue.tok 7 (StoredValue.plain "sec") true,
         url := some "x.com" },
       { domain := "x.com", username := "v2",
         password := StoredValue.tok 7 (StoredValue.plain "sec2") true,
         url := some "x.com" }])],
    storedEntries := [("x.com",
      [{ domain := "x.com", username := "u",
         password := StoredValue.tok 7 (StoredValue.plain "sec") true,
         url := some "x.com" },
       { domain := "x.com", username := "v2",
         password := StoredValue.tok 7 (StoredValue.plain "sec2") true,
         url := some "x.com" }])] }

/-- In-memory entries the vault currently holds for a domain (empty when
the domain key is absent). -/
def entriesFor (v : Vault) (d : String) : List PasswordEntry :=
  (lookupDomain v.passwords d).getD []

/-- Decidable test that a stored value is an intact token under key `k`
(the at-rest shape of every entry of a vault whose entries were saved
under that key). -/
def tokenUnder (k : Nat) : StoredValue → Bool
  | StoredValue.tok k' _ true => decide (k' = k)
  | _ => false

/-- Appending the same string on the right is cancellative. -/
theorem string_append_right_cancel {a b s : String} (h : a ++ s = b ++ s) :
    a = b := by
  cases a with
  | mk la =>
    cases b with
    | mk lb =>
      cases s with
      | mk ls =>
        have hd : la ++ ls = lb ++ ls := congrArg String.data h
        exact congrArg String.mk (List.append_cancel_right hd)

/-- C8: encryption round-trip.  For every key `k` and plaintext `p`,
`_decrypt` under `k` of `_encrypt` under `k` of `p` recovers `p`
exactly. -/
theorem C8_encrypt_decrypt_roundtrip (k : Nat) (p : String) :
    PasswordManager.decrypt (some k)
      (PasswordManager.encrypt (some k) (StoredValue.plain p)) =
      StoredValue.plain p := by
  simp [PasswordManager.decrypt, PasswordManager.encrypt, fernetEncrypt,
    fernetDecrypt]

/-- C2 counterexample: decrypting, under held key 0, a token that was
produced under a different key (key 1) does not yield a decryption
failure — `_decrypt`'s bare `except: return data` hands back the
ciphertext itself as the result, even though the underlying
authenticated cipher rejected the token. -/
theorem C2_counterexample :
    fernetDecrypt 0 (StoredValue.tok 1 (StoredValue.plain "x") true) = none ∧
    PasswordManager.decrypt (some 0)
      (StoredValue.tok 1 (StoredValue.plain "x") true) =
      StoredValue.tok 1 (StoredValue.plain "x") true := by
  exact ⟨rfl, rfl⟩

/-- C2 amended: for every key `k` and every stored value `t` that the
authenticated cipher rejects (altered token, token under a different
key, or a plain non-token string), `_decrypt(k, t)` returns the input
`t` unchanged — it never raises, never signals `DecryptionFailure`, and
never returns a decryption of `t`; the failure is observable only as the
data coming back unmodified. -/
theorem C2_decrypt_failure_returns_input (k : Nat) (t : StoredValue)
    (h : fernetDecrypt k t = none) :
    PasswordManager.decrypt (some k) t = t := by
  simp [PasswordManager.decrypt, h]

/-- Witness for C2's amended theorem at key 0 and a token produced under
key 1. -/
theorem C2_witness :
    PasswordManager.decrypt (some 0)
      (StoredValue.tok 1 (StoredValue.plain "x") true) =
      StoredValue.tok 1 (StoredValue.plain "x") true :=
  C2_decrypt_failure_returns_input 0
    (StoredValue.tok 1 (StoredValue.plain "x") true) rfl

/-- C9 counterexample: the PBKDF2 work factor in
`PasswordManager._derive_key` is not the 480000 iterations the claim
states. -/
theorem C9_counterexample : deriveKeyParams.iterations ≠ 480000 := by
  decide

/-- C9 amended: `_derive_key` derives a 32-byte key with
PBKDF2-HMAC-SHA256 at a fixed work factor of 100000 iterations. -/
theorem C9_derive_key_params :
    deriveKeyParams.algorithm = "SHA256" ∧ deriveKeyParams.length = 32 ∧
      deriveKeyParams.iterations = 100000 :=
  ⟨rfl, rfl, rfl⟩

/-- C10: when no master password has ever been set (no verifier
stored), `verify_master_password` accepts every supplied password. -/
theorem C10_verify_accepts_all_without_master (sha256 : String → String)
    (v : Vault) (p : String) (h : v.masterHash = none) :
    verify_master_password sha256 v p = true := by
  unfold verify_master_password
  rw [h]

/-- Witness for C10 on a concrete vault with no verifier and an
arbitrary guess. -/
theorem C10_witness :
    verify_master_password id emptyVault "any guess" = true :=
  C10_verify_accepts_all_without_master id emptyVault "any guess" rfl

/-- C4 counterexample: `verify_master_password` is a pure predicate; a
successful verification neither derives nor holds the key, so the vault
object is untouched and still reports locked afterwards.  On a locked
vault holding the verifier for "A", verification of "A" succeeds while
`is_locked` remains true. -/
theorem C4_counterexample :
    verify_master_password id lockedVault "A" = true ∧
      is_locked lockedVault = true := by
  exact ⟨by decide, rfl⟩

/-- C4 amended: `verify_master_password` only checks the hash; it is the
separate `unlock` that, on a password passing verification, derives and
holds the key, reloads (and thereby decrypts) the persisted entries, and
leaves the vault unlocked. -/
theorem C4_unlock_transitions (sha256 : String → String)
    (kdf : String → String → Nat) (v : Vault) (p : String)
    (h : verify_master_password sha256 v p = true) :
    (unlock sha256 kdf v p).1 = true ∧
    (unlock sha256 kdf v p).2.fernet = some (kdf p v.saltB64) ∧
    is_locked (unlock sha256 kdf v p).2 = false ∧
    (unlock sha256 kdf v p).2.passwords =
      decryptAll (some (kdf p v.saltB64)) v.storedEntries := by
  simp [unlock, h, is_locked]

/-- Witness for C4's amended theorem: unlocking the sample locked vault
with the correct password. -/
theorem C4_witness :
    (unlock id (fun _ _ => 9) lockedVault "A").1 = true ∧
    (unlock id (fun _ _ => 9) lockedVault "A").2.fernet = some 9 ∧
    is_locked (unlock id (fun _ _ => 9) lockedVault "A").2 = false ∧
    (unlock id (fun _ _ => 9) lockedVault "A").2.passwords =
      decryptAll (some 9) lockedVault.storedEntries := by
  have h := C4_unlock_transitions id (fun _ _ => 9) lockedVault "A" (by decide)
  exact h

/-- C5: after `set_master_password "A"`, verification accepts "A" and
(assuming the hash is collision-free, the idealization of SHA-256)
rejects every other password. -/
theorem C5_verification_correctness (sha256 : String → String)
    (kdf : String → String → Nat) (v : Vault) (A B : String)
    (hinj : Function.Injective sha256) (hAB : B ≠ A) :
    verify_master_password sha256 (set_master_password sha256 kdf v A) A =
      true ∧
    verify_master_password sha256 (set_master_password sha256 kdf v A) B =
      false := by
  constructor
  · simp [verify_master_password, set_master_password, saveStore]
  · simp only [verify_master_password, set_master_password, saveStore,
      hashPassword, decide_eq_false_iff_not]
    intro hcol
    exact hAB (string_append_right_cancel (hinj hcol))

/-- Witness for C5 with the identity function as the (injective) hash
model, on a concrete vault and the passwords "A" and "B". -/
theorem C5_witness :
    verify_master_password id (set_master_password id (fun _ _ => 0) emptyVault "A") "A" = true ∧
    verify_master_password id (set_master_password id (fun _ _ => 0) emptyVault "A") "B" = false :=
  C5_verification_correctness id (fun _ _ => 0) emptyVault "A" "B"
    (fun _ _ h => h) (by decide)

/-- Indexing with a default into a position inside the list yields a
member of the list. -/
theorem getD_mem_of_lt {l : List Char} {n : Nat} {d : Char}
    (h : n < l.length) : l.getD n d ∈ l := by
  rw [List.getD_eq_getElem l d h]
  exact List.getElem_mem h

/-- C7 counterexample: `generate_password` makes a single pass of draws
with no per-class retry, so a draw stream that always picks the first
pool character produces "aaaa" at length 4 — a password containing no
digit (and no uppercase or punctuation character), violating the claimed
complexity policy. -/
theorem C7_counterexample :
    generate_password (fun _ => 0) 4 true = "aaaa" ∧
    ((generate_password (fun _ => 0) 4 true).toList.any
      (fun c => c.isDigit)) = false := by
  exact ⟨rfl, rfl⟩

/-- C7 amended: for every draw stream and requested length,
`generate_password` returns a password of exactly that length whose
characters are all drawn from the letters-digits(-punctuation) pool, but
with no guarantee that any particular character class occurs. -/
theorem C7_generate_length_and_charset (pick : Nat → Nat) (n : Nat)
    (sp : Bool) :
    (generate_password pick n sp).length = n ∧
    ∀ c ∈ (generate_password pick n sp).toList, c ∈ generatorChars sp := by
  have hpos : 0 < (generatorChars sp).length := by
    cases sp <;> decide
  constructor
  · simp [generate_password, String.length]
  · intro c hc
    simp only [generate_password, String.toList, List.mem_map,
      List.mem_range] at hc
    obtain ⟨i, _, hi⟩ := hc
    rw [← hi]
    exact getD_mem_of_lt (Nat.mod_lt _ hpos)

/-- Witness for C7's amended theorem at length 10 with the identity draw
stream. -/
theorem C7_witness :
    (generate_password (fun i => i) 10 true).length = 10 ∧
    ∀ c ∈ (generate_password (fun i => i) 10 true).toList,
      c ∈ generatorChars true :=
  C7_generate_length_and_charset (fun i => i) 10 true

/-- In a list whose usernames are pairwise distinct, `find?` by username
returns exactly the member carrying that username. -/
theorem find_username_of_mem_nodup {es : List PasswordEntry}
    {e : PasswordEntry} {u : String}
    (hnd : (es.map PasswordEntry.username).Nodup) (he : e ∈ es)
    (hu : e.username = u) :
    es.find? (fun x => decide (x.username = u)) = some e := by
  induction es with
  | nil => cases he
  | cons h t ih =>
    simp only [List.map_cons, List.nodup_cons] at hnd
    obtain ⟨hnot, hndt⟩ := hnd
    rcases List.mem_cons.mp he with rfl | het
    · exact List.find?_cons_of_pos _ (by simp [hu])
    · have hhu : ¬ h.username = u := by
        intro hh
        exact hnot (hh ▸ hu ▸ List.mem_map_of_mem PasswordEntry.username het)
      rw [List.find?_cons_of_neg _ (by simp [hhu])]
      exact ih hndt het

/-- C3 counterexample: on the sample locked vault (verifier stored, no
key held, domain "x.com" holding two entries whose in-memory passwords
are still ciphertext), `get_password` neither decrypts nor reports a
locked failure — it returns the entry object with its password field
still an opaque token — and with the username omitted it returns only
the first entry of the domain, not the list of all its entries. -/
theorem C3_counterexample :
    is_locked lockedVault = true ∧
    get_password id lockedVault "x.com" (some "u") =
      some { domain := "x.com", username := "u",
             password := StoredValue.tok 7 (StoredValue.plain "sec") true,
             url := some "x.com" } ∧
    (lockedVault.passwords.map (fun p => p.2.length)) = [2] ∧
    get_password id lockedVault "x.com" none =
      some { domain := "x.com", username := "u",
             password := StoredValue.tok 7 (StoredValue.plain "sec") true,
             url := some "x.com" } := by
  exact ⟨rfl, by decide, rfl, by decide⟩

/-- C3 amended: `get_password(url, username)` returns the unique stored
entry object for `(extract_domain(url), username)` (never a decrypted
secret and never a locked failure — the password field is whatever value
is in memory), independently of whether a key is held; with the username
omitted it returns the domain's first entry, not a list. -/
theorem C3_get_password_entry (ed : String → String) (v : Vault)
    (url u : String) (es : List PasswordEntry) (e : PasswordEntry)
    (hlk : lookupDomain v.passwords (ed url) = some es)
    (hnd : (es.map PasswordEntry.username).Nodup) (he : e ∈ es)
    (hu : e.username = u) (hne : u ≠ "") :
    get_password ed v url (some u) = some e ∧
    get_password ed { v with fernet := none } url (some u) = some e ∧
    get_password ed v url none = es.head? := by
  refine ⟨?_, ?_, ?_⟩
  · simp only [get_password, hlk, hne, if_true, ne_eq, not_false_iff]
    exact find_username_of_mem_nodup hnd he hu
  · have hlk' : lookupDomain ({ v with fernet := none } : Vault).passwords (ed url) = some es := hlk
    simp only [get_password, hlk', hne, if_true, ne_eq, not_false_iff]
    exact find_username_of_mem_nodup hnd he hu
  · simp only [get_password, hlk]

/-- Witness for C3's amended theorem on the sample locked vault. -/
theorem C3_witness :
    get_password id lockedVault "x.com" (some "u") =
      some { domain := "x.com", username := "u",
             password := StoredValue.tok 7 (StoredValue.plain "sec") true,
             url := some "x.com" } ∧
    get_password id { lockedVault with fernet := none } "x.com" (some "u") =
      some { domain := "x.com", username := "u",
             password := StoredValue.tok 7 (StoredValue.plain "sec") true,
             url := some "x.com" } ∧
    get_password id lockedVault "x.com" none =
      (entriesFor lockedVault "x.com").head? := by
  have h := C3_get_password_entry id lockedVault "x.com" "u"
    (entriesFor lockedVault "x.com")
    { domain := "x.com", username := "u",
      password := StoredValue.tok 7 (StoredValue.plain "sec") true,
      url := some "x.com" }
    (by decide) (by decide) (by decide) (by decide) (by decide)
  exact h

/-- Replacing a domain's entry list does not change the key sequence of
the store. -/
theorem replaceDomain_map_fst (pw : List (String × List PasswordEntry))
    (d : String) (es : List PasswordEntry) :
    (replaceDomain pw d es).map Prod.fst = pw.map Prod.fst := by
  unfold replaceDomain
  rw [List.map_map]
  refine List.map_congr_left ?_
  intro p _
  by_cases h : p.1 = d
  · simp [Function.comp, h]
  · simp [Function.comp, h]

/-- Every element of a replaced store is the replacement pair or an
original element. -/
theorem mem_replaceDomain {pw : List (String × List PasswordEntry)}
    {d : String} {es : List PasswordEntry}
    {q : String × List PasswordEntry} (hq : q ∈ replaceDomain pw d es) :
    q = (d, es) ∨ q ∈ pw := by
  unfold replaceDomain at hq
  obtain ⟨p, hp, hfq⟩ := List.mem_map.mp hq
  by_cases h : p.1 = d
  · left
    rw [← hfq, if_pos h]
  · right
    rw [← hfq, if_neg h]
    exact hp

/-- The in-place update of `save_password` rewrites a password and url
but never a username. -/
theorem updateFirst_map_username (u p url : String)
    (es : List PasswordEntry) :
    (updateFirst u p url es).map PasswordEntry.username =
      es.map PasswordEntry.username := by
  induction es with
  | nil => rfl
  | cons h t ih =>
    unfold updateFirst
    by_cases hh : h.username = u
    · simp [hh]
    · simp [hh, ih]

/-- The in-place update of `update_password` rewrites a password but
never a username. -/
theorem updateFirstPw_map_username (u p : String)
    (es : List PasswordEntry) :
    (updateFirstPw u p es).map PasswordEntry.username =
      es.map PasswordEntry.username := by
  induction es with
  | nil => rfl
  | cons h t ih =>
    unfold updateFirstPw
    by_cases hh : h.username = u
    · simp [hh]
    · simp [hh, ih]

/-- A failing dictionary lookup means the key is absent. -/
theorem lookupDomain_eq_none {pw : List (String × List PasswordEntry)}
    {d : String} (h : lookupDomain pw d = none) :
    d ∉ pw.map Prod.fst := by
  unfold lookupDomain at h
  rw [Option.map_eq_none'] at h
  rw [List.find?_eq_none] at h
  intro hd
  obtain ⟨p, hp, hfst⟩ := List.mem_map.mp hd
  exact (h p hp) (by simp [hfst])

/-- A successful dictionary lookup exhibits the key-value pair as a
member of the store. -/
theorem lookupDomain_some_mem {pw : List (String × List PasswordEntry)}
    {d : String} {es : List PasswordEntry}
    (h : lookupDomain pw d = some es) : (d, es) ∈ pw := by
  unfold lookupDomain at h
  obtain ⟨pr, hfind, hsnd⟩ := Option.map_eq_some'.mp h
  have hp := List.find?_some hfind
  have h1 : pr.1 = d := by simpa using hp
  have hmem := List.mem_of_find?_eq_some hfind
  have hpr : pr = (d, es) := by
    cases pr
    simp_all
  rwa [hpr] at hmem

/-- Looking up a key that is present, after replacing its value, finds
the replacement. -/
theorem lookupDomain_replace {pw : List (String × List PasswordEntry)}
    {d : String} {es0 : List PasswordEntry}
    (h : lookupDomain pw d = some es0) (es : List PasswordEntry) :
    lookupDomain (replaceDomain pw d es) d = some es := by
  induction pw with
  | nil => simp [lookupDomain] at h
  | cons q t ih =>
    by_cases hq : q.1 = d
    · unfold lookupDomain replaceDomain
      rw [List.map_cons, if_pos hq]
      rw [List.find?_cons_of_pos _ (by simp)]
      rfl
    · have ht : lookupDomain t d = some es0 := by
        unfold lookupDomain at h ⊢
        rwa [List.find?_cons_of_neg _ (by simp [hq])] at h
      have := ih ht
      unfold lookupDomain replaceDomain at this ⊢
      rw [List.map_cons, if_neg hq]
      rwa [List.find?_cons_of_neg _ (by simp [hq])]

/-- Looking up a key that was absent, after appending it at the end,
finds the appended value. -/
theorem lookupDomain_append_single
    {pw : List (String × List PasswordEntry)} {d : String}
    (h : lookupDomain pw d = none) (l : List PasswordEntry) :
    lookupDomain (pw ++ [(d, l)]) d = some l := by
  induction pw with
  | nil =>
    unfold lookupDomain
    rw [List.nil_append, List.find?_cons_of_pos _ (by simp)]
    rfl
  | cons q t ih =>
    by_cases hq : q.1 = d
    · unfold lookupDomain at h
      rw [List.find?_cons_of_pos _ (by simp [hq])] at h
      simp at h
    · have ht : lookupDomain t d = none := by
        unfold lookupDomain at h ⊢
        rwa [List.find?_cons_of_neg _ (by simp [hq])] at h
      have := ih ht
      unfold lookupDomain at this ⊢
      rw [List.cons_append, List.find?_cons_of_neg _ (by simp [hq])]
      exact this

/-- Filtering by a username that occurs nowhere in the list yields
nothing. -/
theorem filter_username_eq_nil {es : List PasswordEntry} {u : String}
    (h : u ∉ es.map PasswordEntry.username) :
    es.filter (fun e => decide (e.username = u)) = [] := by
  induction es with
  | nil => rfl
  | cons e t ih =>
    simp only [List.map_cons, List.mem_cons, not_or] at h
    obtain ⟨h1, h2⟩ := h
    have hne : ¬ e.username = u := fun hh => h1 hh.symm
    simp [List.filter_cons, hne, ih h2]

/-- With pairwise distinct usernames, filtering the in-place update of
`save_password` by the saved username yields exactly the updated entry. -/
theorem filter_updateFirst {es : List PasswordEntry} {e0 : PasswordEntry}
    {u p url : String} (hnd : (es.map PasswordEntry.username).Nodup)
    (hfind : es.find? (fun x => decide (x.username = u)) = some e0) :
    (updateFirst u p url es).filter (fun x => decide (x.username = u)) =
      [{ e0 with password := StoredValue.plain p, url := some url }] := by
  induction es with
  | nil => simp [List.find?] at hfind
  | cons h t ih =>
    simp only [List.map_cons, List.nodup_cons] at hnd
    obtain ⟨hnot, hndt⟩ := hnd
    by_cases hh : h.username = u
    · rw [List.find?_cons_of_pos _ (by simp [hh])] at hfind
      have he0 : h = e0 := Option.some.inj hfind
      subst he0
      unfold updateFirst
      rw [if_pos hh]
      have hu2 : u ∉ t.map PasswordEntry.username := hh ▸ hnot
      simp [List.filter_cons, hh, filter_username_eq_nil hu2]
    · rw [List.find?_cons_of_neg _ (by simp [hh])] at hfind
      unfold updateFirst
      rw [if_neg hh]
      simp only [List.filter_cons]
      simp [hh]
      exact ih hndt hfind

/-- Saving preserves the store's `(domain, username)` uniqueness
invariant. -/
theorem save_password_preserves_unique (ed : String → String) (v : Vault)
    (url u p : String) (hU : uniqueStore v.passwords) :
    uniqueStore (save_password ed v url u p).passwords := by
  obtain ⟨hK, hE⟩ := hU
  cases hlk : lookupDomain v.passwords (ed url) with
  | none =>
    simp only [save_password, hlk, saveStore]
    constructor
    · rw [List.map_append]
      have hd := lookupDomain_eq_none hlk
      simp [List.nodup_append, hK, hd]
    · intro q hq
      rcases List.mem_append.mp hq with hq | hq
      · exact hE q hq
      · simp only [List.mem_singleton] at hq
        rw [hq]
        simp
  | some es =>
    have hmem := lookupDomain_some_mem hlk
    have hesnd : (es.map PasswordEntry.username).Nodup := hE _ hmem
    cases hfind : es.find? (fun e => decide (e.username = u)) with
    | some e0 =>
      simp only [save_password, hlk, hfind, Option.isSome, if_true, saveStore]
      constructor
      · rw [replaceDomain_map_fst]
        exact hK
      · intro q hq
        rcases mem_replaceDomain hq with rfl | hq2
        · rw [updateFirst_map_username]
          exact hesnd
        · exact hE q hq2
    | none =>
      simp only [save_password, hlk, hfind, Option.isSome, if_false, Bool.false_eq_true, saveStore]
      constructor
      · rw [replaceDomain_map_fst]
        exact hK
      · intro q hq
        rcases mem_replaceDomain hq with rfl | hq2
        · rw [List.map_append]
          have hnu : u ∉ es.map PasswordEntry.username := by
            rw [List.find?_eq_none] at hfind
            intro hmem2
            obtain ⟨e, he, heq⟩ := List.mem_map.mp hmem2
            exact (hfind e he) (by simp [heq])
          simp [List.nodup_append, hesnd, hnu]
        · exact hE q hq2

/-- Removing preserves the store's `(domain, username)` uniqueness
invariant. -/
theorem remove_password_preserves_unique (v : Vault) (d u : String)
    (hU : uniqueStore v.passwords) :
    uniqueStore (remove_password v d u).2.passwords := by
  obtain ⟨hK, hE⟩ := hU
  cases hlk : lookupDomain v.passwords d with
  | none =>
    simp only [remove_password, hlk]
    exact ⟨hK, hE⟩
  | some es =>
    cases hemp : (es.filter (fun e => decide (¬ e.username = u))).isEmpty with
    | true =>
      simp only [remove_password, hlk, hemp, if_true, saveStore]
      constructor
      · exact List.Nodup.sublist (List.Sublist.map _ (List.filter_sublist _)) hK
      · intro q hq
        exact hE q (List.mem_of_mem_filter hq)
    | false =>
      simp only [remove_password, hlk, hemp, Bool.false_eq_true, if_false, saveStore]
      constructor
      · rw [replaceDomain_map_fst]
        exact hK
      · intro q hq
        rcases mem_replaceDomain hq with rfl | hq2
        · have hesnd : (es.map PasswordEntry.username).Nodup :=
            hE _ (lookupDomain_some_mem hlk)
          exact List.Nodup.sublist (List.Sublist.map _ (List.filter_sublist _)) hesnd
        · exact hE q hq2

/-- Updating preserves the store's `(domain, username)` uniqueness
invariant. -/
theorem update_password_preserves_unique (v : Vault) (d u p : String)
    (hU : uniqueStore v.passwords) :
    uniqueStore (update_password v d u p).2.passwords := by
  obtain ⟨hK, hE⟩ := hU
  cases hlk : lookupDomain v.passwords d with
  | none =>
    simp only [update_password, hlk]
    exact ⟨hK, hE⟩
  | some es =>
    cases hfind : es.find? (fun e => decide (e.username = u)) with
    | some e0 =>
      simp only [update_password, hlk, hfind, Option.isSome, if_true, saveStore]
      constructor
      · rw [replaceDomain_map_fst]
        exact hK
      · intro q hq
        rcases mem_replaceDomain hq with rfl | hq2
        · rw [updateFirstPw_map_username]
          exact hE _ (lookupDomain_some_mem hlk)
        · exact hE q hq2
    | none =>
      simp only [update_password, hlk, hfind, Option.isSome, Bool.false_eq_true, if_false]
      exact ⟨hK, hE⟩

/-- After a save, the domain's entries contain exactly one entry with
the saved username, and its in-memory secret is the saved plaintext. -/
theorem save_password_slot (ed : String → String) (v : Vault)
    (url u p : String) (hU : uniqueStore v.passwords) :
    ((entriesFor (save_password ed v url u p) (ed url)).filter
      (fun e => decide (e.username = u))).map PasswordEntry.password =
      [StoredValue.plain p] := by
  obtain ⟨hK, hE⟩ := hU
  cases hlk : lookupDomain v.passwords (ed url) with
  | none =>
    have h7 := lookupDomain_append_single hlk
      [{ domain := ed url, username := u,
         password := StoredValue.plain p, url := some url }]
    simp only [save_password, hlk, saveStore, entriesFor]
    rw [h7]
    simp [List.filter_cons]
  | some es =>
    have hesnd : (es.map PasswordEntry.username).Nodup :=
      hE _ (lookupDomain_some_mem hlk)
    cases hfind : es.find? (fun e => decide (e.username = u)) with
    | some e0 =>
      simp only [save_password, hlk, hfind, Option.isSome, if_true, saveStore,
        entriesFor]
      rw [lookupDomain_replace hlk _]
      simp only [Option.getD_some]
      rw [filter_updateFirst hesnd hfind]
      rfl
    | none =>
      have hnu : u ∉ es.map PasswordEntry.username := by
        rw [List.find?_eq_none] at hfind
        intro hmem2
        obtain ⟨e, he, heq⟩ := List.mem_map.mp hmem2
        exact (hfind e he) (by simp [heq])
      simp only [save_password, hlk, hfind, Option.isSome, Bool.false_eq_true,
        if_false, saveStore, entriesFor]
      rw [lookupDomain_replace hlk _]
      simp only [Option.getD_some]
      rw [List.filter_append, filter_username_eq_nil hnu]
      simp [List.filter_cons]

/-- C6: the embedded mutating vault operations (`save_password`,
`remove_password`, `update_password`, `clear_all`) preserve the
invariant that no two stored entries share a `(domain, username)` pair,
and saving twice for the same `(domain, username)` overwrites in place:
exactly one entry for that pair remains and its secret is the second
password. -/
theorem C6_uniqueness_and_overwrite (ed : String → String) (v : Vault)
    (url u p1 p2 dr ur du uu pu : String) (hU : uniqueStore v.passwords) :
    uniqueStore (save_password ed v url u p1).passwords ∧
    uniqueStore (remove_password v dr ur).2.passwords ∧
    uniqueStore (update_password v du uu pu).2.passwords ∧
    uniqueStore (clear_all v).passwords ∧
    ((entriesFor (save_password ed (save_password ed v url u p1) url u p2)
        (ed url)).filter (fun e => decide (e.username = u))).map
      PasswordEntry.password = [StoredValue.plain p2] := by
  refine ⟨save_password_preserves_unique ed v url u p1 hU,
    remove_password_preserves_unique v dr ur hU,
    update_password_preserves_unique v du uu pu hU,
    ⟨by simp [clear_all, saveStore], by intro q hq; cases hq⟩,
    save_password_slot ed (save_password ed v url u p1) url u p2
      (save_password_preserves_unique ed v url u p1 hU)⟩

/-- Witness for C6 starting from the empty vault: save "p1" then "p2"
for `("x.com", "u")`. -/
theorem C6_witness :
    uniqueStore (save_password id emptyVault "x.com" "u" "p1").passwords ∧
    uniqueStore (remove_password emptyVault "x.com" "u").2.passwords ∧
    uniqueStore (update_password emptyVault "x.com" "u" "q").2.passwords ∧
    uniqueStore (clear_all emptyVault).passwords ∧
    ((entriesFor (save_password id (save_password id emptyVault "x.com" "u" "p1")
        "x.com" "u" "p2") "x.com").filter
      (fun e => decide (e.username = "u"))).map PasswordEntry.password =
      [StoredValue.plain "p2"] :=
  C6_uniqueness_and_overwrite id emptyVault "x.com" "u" "p1" "p2" "x.com"
    "u" "x.com" "u" "q" (by decide)

/-- A value passing `tokenUnder k` is an intact token under `k`. -/
theorem tokenUnder_shape {k : Nat} {v : StoredValue}
    (h : tokenUnder k v = true) : ∃ s, v = StoredValue.tok k s true := by
  cases v with
  | plain s => simp [tokenUnder] at h
  | tok k' s intact =>
    cases intact with
    | false => simp [tokenUnder] at h
    | true =>
      simp only [tokenUnder, decide_eq_true_eq] at h
      exact ⟨s, by rw [h]⟩

/-- The `DecryptAll` phase succeeds on a list whose passwords are all
intact tokens under the key. -/
theorem decryptEntriesE_isSome {k : Nat} {es : List PasswordEntry}
    (h : ∀ e ∈ es, tokenUnder k e.password = true) :
    (decryptEntriesE k es).isSome = true := by
  induction es with
  | nil => rfl
  | cons e t ih =>
    obtain ⟨s, hs⟩ := tokenUnder_shape (h e (List.mem_cons_self e t))
    have ht := ih (fun x hx => h x (List.mem_cons_of_mem e hx))
    obtain ⟨t', ht'⟩ := Option.isSome_iff_exists.mp ht
    simp [decryptEntriesE, hs, fernetDecrypt, ht']

/-- The `DecryptAll` phase succeeds on a store whose passwords are all
intact tokens under the key. -/
theorem decryptStoreE_isSome {k : Nat}
    {ps : List (String × List PasswordEntry)}
    (h : ∀ pr ∈ ps, ∀ e ∈ pr.2, tokenUnder k e.password = true) :
    (decryptStoreE k ps).isSome = true := by
  induction ps with
  | nil => rfl
  | cons pr t ih =>
    have he := decryptEntriesE_isSome (h pr (List.mem_cons_self pr t))
    obtain ⟨es, hes⟩ := Option.isSome_iff_exists.mp he
    have ht := ih (fun x hx => h x (List.mem_cons_of_mem pr hx))
    obtain ⟨t', ht'⟩ := Option.isSome_iff_exists.mp ht
    simp [decryptStoreE, hes, ht']

/-- Decrypting, under the same key, a list whose passwords were all just
encrypted under that key recovers the list exactly. -/
theorem decryptEntriesE_encryptMap (k : Nat) (es : List PasswordEntry) :
    decryptEntriesE k (es.map (fun e =>
      { e with password := PasswordManager.encrypt (some k) e.password })) =
      some es := by
  induction es with
  | nil => rfl
  | cons e t ih =>
    simp only [List.map_cons, PasswordManager.encrypt, fernetEncrypt] at ih ⊢
    simp [decryptEntriesE, fernetDecrypt, ih]

/-- Decrypting, under the same key, a store that was just wholly
encrypted under that key recovers the store exactly. -/
theorem decryptStoreE_encryptAll (k : Nat)
    (ps : List (String × List PasswordEntry)) :
    decryptStoreE k (encryptAll (some k) ps) = some ps := by
  induction ps with
  | nil => rfl
  | cons pr t ih =>
    simp only [encryptAll, List.map_cons] at ih ⊢
    simp [decryptStoreE, decryptEntriesE_encryptMap, ih]

/-- Every password of a store encrypted under `k'` fails authenticated
decryption under any other key `k`. -/
theorem encryptAll_decrypt_other_key_fails {k k' : Nat} (hne : k' ≠ k)
    (ps : List (String × List PasswordEntry)) :
    ∀ pr ∈ encryptAll (some k') ps, ∀ e ∈ pr.2,
      fernetDecrypt k e.password = none := by
  intro pr hpr e he
  obtain ⟨p0, _, hp0⟩ := List.mem_map.mp hpr
  rw [← hp0] at he
  simp only at he
  obtain ⟨e0, _, he0⟩ := List.mem_map.mp he
  rw [← he0]
  simp [PasswordManager.encrypt, fernetEncrypt, fernetDecrypt, hne]

/-- C1 (re-keying atomicity, modelled from the spec since the source has
no `change_master_password`): on a vault whose verifier matches `old`
and whose persisted entries are all intact tokens under the key derived
from `old`, a call with a wrong old password returns false and leaves
the vault — persisted salt, verifier and all ciphertexts — exactly as it
was (its entries still decrypt under `old`), while a call with the
correct old password returns true, after which every persisted entry
decrypts under the new key to the same secret it held under `old`, and
every persisted entry fails to decrypt under the old key.  Hash
collision-freeness and distinctness of the newly derived key are the
cryptographic idealizations. -/
theorem C1_change_master_password_atomic (sha256 : String → String)
    (kdf : String → String → Nat) (freshSalt : String) (v : Vault)
    (old new_ wrong : String) (hinj : Function.Injective sha256)
    (hwf : v.masterHash = some (hashPassword sha256 v.saltB64 old))
    (hstored : ∀ pr ∈ v.storedEntries, ∀ e ∈ pr.2,
      tokenUnder (kdf old v.saltB64) e.password = true)
    (hwrong : wrong ≠ old)
    (hknew : kdf new_ freshSalt ≠ kdf old v.saltB64) :
    change_master_password sha256 kdf freshSalt v wrong new_ = (false, v) ∧
    (change_master_password sha256 kdf freshSalt v old new_).1 = true ∧
    (decryptStoreE (kdf old v.saltB64) v.storedEntries).isSome = true ∧
    decryptStoreE (kdf new_ freshSalt)
      (change_master_password sha256 kdf freshSalt v old new_).2.storedEntries =
      decryptStoreE (kdf old v.saltB64) v.storedEntries ∧
    ∀ pr ∈ (change_master_password sha256 kdf freshSalt v old
        new_).2.storedEntries, ∀ e ∈ pr.2,
      fernetDecrypt (kdf old v.saltB64) e.password = none := by
  have hverw : verify_master_password sha256 v wrong = false := by
    unfold verify_master_password
    rw [hwf]
    simp only [hashPassword, decide_eq_false_iff_not]
    intro hcol
    exact hwrong (string_append_right_cancel (hinj hcol))
  have hvero : verify_master_password sha256 v old = true := by
    unfold verify_master_password
    rw [hwf]
    simp
  have hsome := decryptStoreE_isSome hstored
  obtain ⟨plains, hplains⟩ := Option.isSome_iff_exists.mp hsome
  have hred : change_master_password sha256 kdf freshSalt v old new_ =
      (true, { saltB64 := freshSalt,
               masterHash := some (hashPassword sha256 freshSalt new_),
               fernet := some (kdf new_ freshSalt),
               passwords := plains,
               storedEntries := encryptAll (some (kdf new_ freshSalt)) plains }) := by
    simp [change_master_password, hvero, hplains]
  refine ⟨by simp [change_master_password, hverw], ?_, ?_, ?_, ?_⟩
  · rw [hred]
  · exact hsome
  · rw [hred, hplains]
    exact decryptStoreE_encryptAll (kdf new_ freshSalt) plains
  · rw [hred]
    exact encryptAll_decrypt_other_key_fails hknew plains

/-- Witness for C1 with the identity hash model and the string-length
KDF model, on a one-entry vault saved under master password "old". -/
theorem C1_witness :
    change_master_password id (fun a b => (a ++ b).length) "ts"
      { saltB64 := "s", masterHash := some "olds", fernet := none,
        passwords := [("x.com",
          [{ domain := "x.com", username := "u",
             password := StoredValue.plain "sec", url := none }])],
        storedEntries := [("x.com",
          [{ domain := "x.com", username := "u",
             password := StoredValue.tok 4 (StoredValue.plain "sec") true,
             url := none }])] } "no" "newp" =
      (false,
        { saltB64 := "s", masterHash := some "olds", fernet := none,
          passwords := [("x.com",
            [{ domain := "x.com", username := "u",
               password := StoredValue.plain "sec", url := none }])],
          storedEntries := [("x.com",
            [{ domain := "x.com", username := "u",
               password := StoredValue.tok 4 (StoredValue.plain "sec") true,
               url := none }])] }) ∧
    (change_master_password id (fun a b => (a ++ b).length) "ts"
      { saltB64 := "s", masterHash := some "olds", fernet := none,
        passwords := [("x.com",
          [{ domain := "x.com", username := "u",
             password := StoredValue.plain "sec", url := none }])],
        storedEntries := [("x.com",
          [{ domain := "x.com", username := "u",
             password := StoredValue.tok 4 (StoredValue.plain "sec") true,
             url := none }])] } "old" "newp").1 = true ∧
    (decryptStoreE 4 [("x.com",
      [{ domain := "x.com", username := "u",
         password := StoredValue.tok 4 (StoredValue.plain "sec") true,
         url := none }])]).isSome = true ∧
    decryptStoreE 6
      (change_master_password id (fun a b => (a ++ b).length) "ts"
        { saltB64 := "s", masterHash := some "olds", fernet := none,
          passwords := [("x.com",
            [{ domain := "x.com", username := "u",
               password := StoredValue.plain "sec", url := none }])],
          storedEntries := [("x.com",
            [{ domain := "x.com", username := "u",
               password := StoredValue.tok 4 (StoredValue.plain "sec") true,
               url := none }])] } "old" "newp").2.storedEntries =
      decryptStoreE 4 [("x.com",
        [{ domain := "x.com", username := "u",
           password := StoredValue.tok 4 (StoredValue.plain "sec") true,
           url := none }])] ∧
    ∀ pr ∈ (change_master_password id (fun a b => (a ++ b).length) "ts"
        { saltB64 := "s", masterHash := some "olds", fernet := none,
          passwords := [("x.com",
            [{ domain := "x.com", username := "u",
               password := StoredValue.plain "sec", url := none }])],
          storedEntries := [("x.com",
            [{ domain := "x.com", username := "u",
               password := StoredValue.tok 4 (StoredValue.plain "sec") true,
               url := none }])] } "old" "newp").2.storedEntries, ∀ e ∈ pr.2,
      fernetDecrypt 4 e.password = none :=
  C1_change_master_password_atomic id (fun a b => (a ++ b).length) "ts"
    { saltB64 := "s", masterHash := some "olds", fernet := none,
      passwords := [("x.com",
        [{ domain := "x.com", username := "u",
           password := StoredValue.plain "sec", url := none }])],
      storedEntries := [("x.com",
        [{ domain := "x.com", username := "u",
           password := StoredValue.tok 4 (StoredValue.plain "sec") true,
           url := none }])] } "old" "newp" "no"
    (fun _ _ h => h) (by decide) (by decide) (by decide) (by decide)
